import Mathlib

/-!
Shallow embedding of `easyfile/core.py` (repository yasufumy/arrayfiles).

The mapped region of a file is modelled as a `List Char`, one entry per byte
of a single-byte-transparent text (decoding with the configured encoding is
the identity on this model; `'\n'` is a single byte in every encoding the
library exercises).  File system access is modelled as a pure map from paths
to contents, fixed for the duration of a scenario (the spec declares
behaviour against a changed file undefined).
-/

namespace Easyfile

/-- The file system: a pure map from paths to mapped-region contents. -/
abbrev FileSystem := String → List Char

/-- `os.linesep` on the POSIX platforms the library targets: a single
newline character. -/
def linesep : List Char := ['\n']

/-- `str.rstrip(chars)`: remove every trailing character that belongs to
`chars`. -/
def rstrip (chars : List Char) (s : List Char) : List Char :=
  (s.reverse.dropWhile (fun c => chars.contains c)).reverse

/-- `bytes.decode(encoding)` on the single-byte-transparent model: the
region characters are already the decoded code points. -/
def decode (encoding : String) (bs : List Char) : String :=
  let _ := encoding
  bs.asString

/-- A Python slice `xs[a:b]` of a byte region (bounds already nonnegative). -/
def pySlice (xs : List Char) (a b : Nat) : List Char :=
  (xs.drop a).take (b - a)

/-- `mmap.readline`: consume characters up to and including the first
`'\n'`, or up to the end of the region; return the line read and the rest. -/
def readline : List Char → List Char × List Char
  | [] => ([], [])
  | c :: cs =>
    if c = '\n' then ([c], cs)
    else
      let p := readline cs
      (c :: p.1, p.2)

theorem readline_cons_nl (cs : List Char) : readline ('\n' :: cs) = (['\n'], cs) := by
  simp [readline]

theorem readline_cons_of_ne (c : Char) (cs : List Char) (h : c ≠ '\n') :
    readline (c :: cs) = (c :: (readline cs).1, (readline cs).2) := by
  simp [readline, h]

theorem readline_append : ∀ s : List Char, (readline s).1 ++ (readline s).2 = s := by
  intro s
  induction s with
  | nil => rfl
  | cons c cs ih =>
    by_cases h : c = '\n'
    · simp [readline, h]
    · simp [readline, h, ih]

theorem readline_snd_length_le : ∀ s : List Char, (readline s).2.length ≤ s.length := by
  intro s
  induction s with
  | nil => simp [readline]
  | cons c cs ih =>
    by_cases h : c = '\n'
    · simp [readline, h]
    · simp only [readline, h, if_false]
      exact Nat.le_succ_of_le ih

theorem readline_snd_length_lt (s : List Char) (h : s ≠ []) :
    (readline s).2.length < s.length := by
  cases s with
  | nil => exact absurd rfl h
  | cons c cs =>
    by_cases hc : c = '\n'
    · simp [readline, hc]
    · simp only [readline, hc, if_false, List.length_cons]
      exact Nat.lt_succ_of_le (readline_snd_length_le cs)

theorem readline_fst_ne_nil (s : List Char) (h : s ≠ []) : (readline s).1 ≠ [] := by
  cases s with
  | nil => exact absurd rfl h
  | cons c cs =>
    by_cases hc : c = '\n' <;> simp [readline, hc]

/-- Induction along repeated `readline` steps: every `readline` on a
nonempty region strictly shrinks it. -/
theorem readline_induction (P : List Char → Prop) (base : P [])
    (step : ∀ s, s ≠ [] → P (readline s).2 → P s) : ∀ s : List Char, P s := by
  have key : ∀ (n : Nat) (s : List Char), s.length ≤ n → P s := by
    intro n
    induction n with
    | zero =>
      intro s hs
      rw [List.length_eq_zero.mp (Nat.le_zero.mp hs)]
      exact base
    | succ m ih =>
      intro s hs
      by_cases h : s = []
      · rw [h]
        exact base
      · refine step s h (ih (readline s).2 ?_)
        have := readline_snd_length_lt s h
        omega
  exact fun s => key s.length s (le_refl _)

/-- The `iter(mm.readline, b'')` loop, bounded by a fuel that the region
length always saturates (each successful read consumes at least one
byte). -/
def splitLinesFuel : Nat → List Char → List (List Char)
  | 0, _ => []
  | fuel + 1, s =>
    if s = [] then []
    else (readline s).1 :: splitLinesFuel fuel (readline s).2

/-- The sequence of raw lines (terminators kept) obtained by iterated
`readline` calls until an empty read, as in
`iter(mm.readline, b'')`. -/
def splitLines (s : List Char) : List (List Char) :=
  splitLinesFuel (s.length + 1) s

theorem splitLinesFuel_congr : ∀ (f g : Nat) (s : List Char),
    s.length < f → s.length < g → splitLinesFuel f s = splitLinesFuel g s := by
  intro f
  induction f with
  | zero =>
    intro g s hf
    omega
  | succ f ih =>
    intro g s hf hg
    cases g with
    | zero => omega
    | succ g =>
      by_cases h : s = []
      · simp [splitLinesFuel, h]
      · simp only [splitLinesFuel, if_neg h]
        have hlt := readline_snd_length_lt s h
        rw [ih g (readline s).2 (by omega) (by omega)]

theorem splitLines_nil : splitLines [] = [] := rfl

theorem splitLines_cons (s : List Char) (h : s ≠ []) :
    splitLines s = (readline s).1 :: splitLines (readline s).2 := by
  have hlt := readline_snd_length_lt s h
  show splitLinesFuel (s.length + 1) s = _
  rw [splitLinesFuel, if_neg h]
  rw [splitLinesFuel_congr s.length ((readline s).2.length + 1) (readline s).2
    (by omega) (by omega)]
  rfl

/-- The `tell()` values recorded after each successful `readline`,
starting from stream position `pos` (same fuel discipline). -/
def tellOffsetsFuel : Nat → List Char → Nat → List Nat
  | 0, _, _ => []
  | fuel + 1, s, pos =>
    if s = [] then []
    else (pos + (readline s).1.length) ::
      tellOffsetsFuel fuel (readline s).2 (pos + (readline s).1.length)

def tellOffsets (s : List Char) (pos : Nat) : List Nat :=
  tellOffsetsFuel (s.length + 1) s pos

theorem tellOffsetsFuel_congr : ∀ (f g : Nat) (s : List Char) (pos : Nat),
    s.length < f → s.length < g →
    tellOffsetsFuel f s pos = tellOffsetsFuel g s pos := by
  intro f
  induction f with
  | zero =>
    intro g s pos hf
    omega
  | succ f ih =>
    intro g s pos hf hg
    cases g with
    | zero => omega
    | succ g =>
      by_cases h : s = []
      · simp [tellOffsetsFuel, h]
      · simp only [tellOffsetsFuel, if_neg h]
        have hlt := readline_snd_length_lt s h
        rw [ih g (readline s).2 _ (by omega) (by omega)]

theorem tellOffsets_nil (pos : Nat) : tellOffsets [] pos = [] := rfl

theorem tellOffsets_cons (s : List Char) (pos : Nat) (h : s ≠ []) :
    tellOffsets s pos = (pos + (readline s).1.length) ::
      tellOffsets (readline s).2 (pos + (readline s).1.length) := by
  have hlt := readline_snd_length_lt s h
  show tellOffsetsFuel (s.length + 1) s pos = _
  rw [tellOffsetsFuel, if_neg h]
  rw [tellOffsetsFuel_congr s.length ((readline s).2.length + 1) (readline s).2
    _ (by omega) (by omega)]
  rfl

/-- `TextFile._get_offsets`: `[0] + [mm.tell() for _ in iter(mm.readline, b'')]`. -/
def getOffsets (region : List Char) : List Nat :=
  0 :: tellOffsets region 0

/-- `io.open`'s universal-newline translation applied by text-mode reads:
`"\r\n"` and a lone `"\r"` both become `"\n"`. -/
def univNewlinesFuel : Nat → List Char → List Char
  | 0, _ => []
  | fuel + 1, s =>
    if s = [] then []
    else if s.headD ' ' = '\r' then
      '\n' :: univNewlinesFuel fuel
        (if s.tail.headD ' ' = '\n' then s.tail.tail else s.tail)
    else s.headD ' ' :: univNewlinesFuel fuel s.tail

def univNewlines (s : List Char) : List Char :=
  univNewlinesFuel (s.length + 1) s

theorem univNewlinesFuel_congr : ∀ (f g : Nat) (s : List Char),
    s.length < f → s.length < g →
    univNewlinesFuel f s = univNewlinesFuel g s := by
  intro f
  induction f with
  | zero =>
    intro g s hf
    omega
  | succ f ih =>
    intro g s hf hg
    cases g with
    | zero => omega
    | succ g =>
      by_cases hs : s = []
      · simp [univNewlinesFuel, hs]
      · have hlen : 0 < s.length := List.length_pos.mpr hs
        have htail : s.tail.length = s.length - 1 := List.length_tail s
        have htail2 : s.tail.tail.length = s.tail.length - 1 := List.length_tail _
        simp only [univNewlinesFuel, if_neg hs]
        by_cases hr : s.headD ' ' = '\r'
        · rw [if_pos hr, if_pos hr]
          congr 1
          split
          · exact ih g s.tail.tail (by omega) (by omega)
          · exact ih g s.tail (by omega) (by omega)
        · rw [if_neg hr, if_neg hr]
          congr 1
          exact ih g s.tail (by omega) (by omega)

theorem univNewlines_cons_ne (c : Char) (cs : List Char) (h : c ≠ '\r') :
    univNewlines (c :: cs) = c :: univNewlines cs := by
  show univNewlinesFuel ((c :: cs).length + 1) (c :: cs) = _
  rw [univNewlinesFuel, if_neg (by simp : ¬ (c :: cs) = [])]
  rw [if_neg (by simpa using h)]
  simp only [List.headD_cons, List.tail_cons, List.length_cons]
  rfl

instance {ε α : Type _} [DecidableEq ε] [DecidableEq α] :
    DecidableEq (Except ε α) := fun a b => by
  cases a <;> cases b
  case error.error e f => exact decidable_of_iff (e = f) (by simp)
  case error.ok e v => exact .isFalse (by simp)
  case ok.error v e => exact .isFalse (by simp)
  case ok.ok v w => exact decidable_of_iff (v = w) (by simp)

/-- The exceptions the module raises. -/
inductive PyError where
  | indexError (msg : String)
  | valueError (msg : String)
deriving DecidableEq, Repr

/-- `mmap.mmap(fd, 0, access=mmap.ACCESS_READ)` inside the scoped
`fd_open`: maps the whole file read-only.  CPython raises
`ValueError("cannot mmap an empty file")` when the file is zero-length,
so construction of every view fails on an empty file. -/
def mmapRegion (contents : List Char) : Except PyError (List Char) :=
  if contents = [] then .error (.valueError "cannot mmap an empty file")
  else .ok contents

/-- A Random-Access Text View over the default newline delimiter
(`TextFile`).  `region` is the mapped file contents acquired at
construction; `path` and `encoding` are the remaining instance state. -/
structure TextFile where
  path : String
  encoding : String
  region : List Char
deriving DecidableEq, Repr

/-- `TextFile.__init__`: store path and encoding, then map the file;
the mapping step fails on a zero-length file. -/
def TextFile.init (fs : FileSystem) (path : String)
    (encoding : String := "utf-8") : Except PyError TextFile :=
  match mmapRegion (fs path) with
  | .error e => .error e
  | .ok mm => .ok { path := path, encoding := encoding, region := mm }

/-- The cached `TextFile._offsets` property. -/
def TextFile.offsets (tf : TextFile) : List Nat :=
  getOffsets tf.region

/-- `TextFile._get_length`: `len(self._offsets) - 1` (a Python `int`). -/
def lengthOf (offsets : List Nat) : Int :=
  (offsets.length : Int) - 1

/-- The cached `TextFile._length` property. -/
def TextFile.length (tf : TextFile) : Int :=
  lengthOf tf.offsets

/-- `TextFile.getline`, shared by every view: decode the region bytes
between consecutive offsets and strip the trailing terminator. -/
def getlineAt (encoding : String) (region : List Char) (offsets : List Nat)
    (i : Nat) : String :=
  decode encoding (rstrip linesep (pySlice region (offsets.getD i 0) (offsets.getD (i + 1) 0)))

def TextFile.getline (tf : TextFile) (i : Nat) : String :=
  getlineAt tf.encoding tf.region tf.offsets i

/-- The integer branch of `TextFile.__getitem__`: Python-style negative
index normalization, `IndexError` outside `[0, length)`. -/
def getitemCore (encoding : String) (region : List Char) (offsets : List Nat)
    (index : Int) : Except PyError String :=
  if 0 ≤ index then
    if lengthOf offsets ≤ index then
      .error (.indexError "Text object index out of range")
    else .ok (getlineAt encoding region offsets index.toNat)
  else
    if index < -lengthOf offsets then
      .error (.indexError "Text object index out of range")
    else .ok (getlineAt encoding region offsets (index + lengthOf offsets).toNat)

def TextFile.getitem (tf : TextFile) (index : Int) : Except PyError String :=
  getitemCore tf.encoding tf.region tf.offsets index

/-- `TextFile.__iter__`: re-open the path in text mode (universal
newlines) and yield each line with its terminator stripped. -/
def TextFile.iterLines (fs : FileSystem) (tf : TextFile) : List String :=
  (splitLines (univNewlines (fs tf.path))).map
    (fun l => decode tf.encoding (rstrip linesep l))

/-- The loop body of `TextFile.iterate`: keep reading lines while the
stream position differs from the target offset.  (When the target offset
is unreachable the Python loop would spin at end-of-region; the model
stops there, and every claim stays within reachable offsets.) -/
def iterateLoopFuel (encoding : String) :
    Nat → List Char → Nat → Nat → List String
  | 0, _, _, _ => []
  | fuel + 1, s, pos, endOff =>
    if pos = endOff then []
    else if s = [] then []
    else
      decode encoding (rstrip linesep (readline s).1) ::
        iterateLoopFuel encoding fuel (readline s).2
          (pos + (readline s).1.length) endOff

def iterateLoop (encoding : String) (s : List Char) (pos endOff : Nat) :
    List String :=
  iterateLoopFuel encoding (s.length + 1) s pos endOff

theorem iterateLoopFuel_congr (encoding : String) :
    ∀ (f g : Nat) (s : List Char) (pos endOff : Nat),
    s.length < f → s.length < g →
    iterateLoopFuel encoding f s pos endOff =
      iterateLoopFuel encoding g s pos endOff := by
  intro f
  induction f with
  | zero =>
    intro g s pos endOff hf
    omega
  | succ f ih =>
    intro g s pos endOff hf hg
    cases g with
    | zero => omega
    | succ g =>
      by_cases hpe : pos = endOff
      · simp [iterateLoopFuel, hpe]
      · by_cases h : s = []
        · simp [iterateLoopFuel, hpe, h]
        · simp only [iterateLoopFuel, if_neg hpe, if_neg h]
          have hlt := readline_snd_length_lt s h
          rw [ih g (readline s).2 _ _ (by omega) (by omega)]

/-- One unfolding step of the `iterate` loop. -/
theorem iterateLoop_eq (encoding : String) (s : List Char) (pos endOff : Nat) :
    iterateLoop encoding s pos endOff =
      if pos = endOff then []
      else if s = [] then []
      else
        decode encoding (rstrip linesep (readline s).1) ::
          iterateLoop encoding (readline s).2
            (pos + (readline s).1.length) endOff := by
  show iterateLoopFuel encoding (s.length + 1) s pos endOff = _
  rw [iterateLoopFuel]
  by_cases hpe : pos = endOff
  · rw [if_pos hpe, if_pos hpe]
  · rw [if_neg hpe, if_neg hpe]
    by_cases h : s = []
    · rw [if_pos h, if_pos h]
    · rw [if_neg h, if_neg h]
      have hlt := readline_snd_length_lt s h
      rw [iterateLoopFuel_congr encoding s.length ((readline s).2.length + 1)
        (readline s).2 _ _ (by omega) (by omega)]
      rfl

/-- `TextFile.iterate(start, end)`: reject `start > end`, seek to
`offsets[start]`, and read lines until the cursor reaches `offsets[end]`
(or the final offset when `end` is past the table).  Bounds are modelled
as naturals, the range the contract addresses. -/
def TextFile.iterate (tf : TextFile) (start fin : Nat) :
    Except PyError (List String) :=
  if start > fin then .error (.valueError "end should be larger than start.")
  else
    .ok (iterateLoop tf.encoding
      (tf.region.drop (tf.offsets.getD start 0))
      (tf.offsets.getD start 0)
      (if fin < tf.offsets.length then tf.offsets.getD fin 0
        else tf.offsets.getD (tf.offsets.length - 1) 0))

/-- `TextFile.__getstate__` returns `self.__dict__` minus the mapping:
the two instance attributes `_path` and `_encoding` (the memoized offset
table and length live in the class-level cache, not in the instance
dictionary, so they are not part of the state). -/
structure TextFileState where
  path : String
  encoding : String
deriving DecidableEq, Repr

def TextFile.getstate (tf : TextFile) : TextFileState :=
  { path := tf.path, encoding := tf.encoding }

/-- `TextFile.__setstate__`: restore the scalar state, then re-acquire a
mapping over the stored path (again failing on a zero-length file). -/
def TextFile.setstate (fs : FileSystem) (st : TextFileState) :
    Except PyError TextFile :=
  match mmapRegion (fs st.path) with
  | .error e => .error e
  | .ok mm => .ok { path := st.path, encoding := st.encoding, region := mm }

/-- A successful construction stores exactly the path, the encoding and
the mapped contents, and only happens on a nonempty file. -/
theorem textFile_init_ok (fs : FileSystem) (path enc : String)
    (tf : TextFile) (h : TextFile.init fs path enc = .ok tf) :
    tf = ⟨path, enc, fs path⟩ ∧ fs path ≠ [] := by
  by_cases he : fs path = []
  · have herr : TextFile.init fs path enc =
        .error (.valueError "cannot mmap an empty file") := by
      unfold TextFile.init mmapRegion
      rw [if_pos he]
    rw [herr] at h
    simp at h
  · have hok : TextFile.init fs path enc = .ok ⟨path, enc, fs path⟩ := by
      unfold TextFile.init mmapRegion
      rw [if_neg he]
    rw [hok] at h
    injection h with h2
    exact ⟨h2.symm, he⟩

/-- `mmap.find(sub, idx)` scanning the suffix `s` of the region, where
`idx` is the absolute position of `s`: the lowest absolute index at which
`sub` occurs, or `none`. -/
def findAux (sub : List Char) (s : List Char) (idx : Nat) : Option Nat :=
  if sub.isPrefixOf s then some idx
  else
    match s with
    | [] => none
    | _ :: rest => findAux sub rest (idx + 1)

/-- `mm.find(sub, start)` over the whole region. -/
def findFrom (region sub : List Char) (start : Nat) : Option Nat :=
  findAux sub (region.drop start) start

/-- The search loop of `CustomNewlineTextFile._get_offsets`: after each
match, record the position just past it and resume the search there.  The
fuel argument bounds the number of matches (any `region.length + 1` is
enough for a nonempty delimiter; the Python loop does not terminate on an
empty delimiter, which the library never passes). -/
def customOffsetsAux (region newline : List Char) :
    Nat → Nat → List Nat
  | 0, _ => []
  | fuel + 1, start =>
    match findFrom region newline start with
    | none => []
    | some t => (t + newline.length) ::
        customOffsetsAux region newline fuel (t + newline.length)

/-- `CustomNewlineTextFile._get_offsets`: `[0]` followed by the position
just past each delimiter occurrence. -/
def customGetOffsets (region newline : List Char) : List Nat :=
  0 :: customOffsetsAux region newline (region.length + 1) 0

/-- A Custom-Delimiter Text View (`CustomNewlineTextFile`): inherits the
`TextFile` state plus the encoded delimiter bytes. -/
structure CustomNewlineTextFile where
  path : String
  encoding : String
  region : List Char
  newline : List Char
deriving DecidableEq, Repr

def CustomNewlineTextFile.init (fs : FileSystem) (path : String)
    (newline : String) (encoding : String := "utf-8") :
    Except PyError CustomNewlineTextFile :=
  match mmapRegion (fs path) with
  | .error e => .error e
  | .ok mm => .ok ⟨path, encoding, mm, newline.data⟩

def CustomNewlineTextFile.offsets (tf : CustomNewlineTextFile) : List Nat :=
  customGetOffsets tf.region tf.newline

def CustomNewlineTextFile.length (tf : CustomNewlineTextFile) : Int :=
  lengthOf tf.offsets

def CustomNewlineTextFile.getline (tf : CustomNewlineTextFile) (i : Nat) : String :=
  getlineAt tf.encoding tf.region tf.offsets i

def CustomNewlineTextFile.getitem (tf : CustomNewlineTextFile) (index : Int) :
    Except PyError String :=
  getitemCore tf.encoding tf.region tf.offsets index

/-- `CustomNewlineTextFile.__iter__`: decode the region between zipped
adjacent offsets (so the final segment after the last delimiter is never
visited). -/
def CustomNewlineTextFile.iterLines (tf : CustomNewlineTextFile) : List String :=
  (tf.offsets.zip tf.offsets.tail).map
    (fun p => decode tf.encoding (rstrip linesep (pySlice tf.region p.1 p.2)))

/-- Leftmost non-overlapping occurrence count of a pattern, written from
the spec's words "the number of delimiter occurrences found": take the
match whenever the pattern starts here, and continue past it. -/
def nonOverlapCountFuel (pat : List Char) : Nat → List Char → Nat
  | 0, _ => 0
  | fuel + 1, s =>
    if pat ≠ [] ∧ pat.isPrefixOf s then
      nonOverlapCountFuel pat fuel (s.drop pat.length) + 1
    else if s = [] then 0
    else nonOverlapCountFuel pat fuel s.tail

def nonOverlapCount (pat : List Char) (s : List Char) : Nat :=
  nonOverlapCountFuel pat (s.length + 1) s

theorem nonOverlapCountFuel_congr (pat : List Char) :
    ∀ (f g : Nat) (s : List Char), s.length < f → s.length < g →
    nonOverlapCountFuel pat f s = nonOverlapCountFuel pat g s := by
  intro f
  induction f with
  | zero =>
    intro g s hf
    omega
  | succ f ih =>
    intro g s hf hg
    cases g with
    | zero => omega
    | succ g =>
      by_cases hp : pat ≠ [] ∧ pat.isPrefixOf s
      · have hlen : 0 < pat.length := List.length_pos.mpr hp.1
        have hle : pat.length ≤ s.length :=
          (List.isPrefixOf_iff_prefix.mp hp.2).length_le
        simp only [nonOverlapCountFuel, if_pos hp]
        rw [ih g (s.drop pat.length)
          (by rw [List.length_drop]; omega) (by rw [List.length_drop]; omega)]
      · simp only [nonOverlapCountFuel, if_neg hp]
        by_cases hs : s = []
        · rw [if_pos hs, if_pos hs]
        · rw [if_neg hs, if_neg hs]
          have hlen : 0 < s.length := List.length_pos.mpr hs
          have htail : s.tail.length = s.length - 1 := List.length_tail s
          exact ih g s.tail (by omega) (by omega)

/-! ### Python slices

`slice.indices(length)` following CPython's `PySlice_Unpack` and
`PySlice_AdjustIndices`. -/

/-- A Python `slice` literal: optional start, stop, step. -/
structure PySlice where
  start : Option Int
  stop : Option Int
  step : Option Int
deriving DecidableEq, Repr

/-- Clamp a supplied start/stop value as `PySlice_AdjustIndices` does. -/
def sliceAdjust (length v : Int) (negStep : Bool) : Int :=
  if v < 0 then
    if v + length < 0 then (if negStep then -1 else 0) else v + length
  else
    if v ≥ length then (if negStep then length - 1 else length) else v

/-- `slice.indices(length)`: the `(start, stop, step)` of the equivalent
`range`; a zero step is a `ValueError`. -/
def sliceIndices (sl : PySlice) (length : Int) :
    Except PyError (Int × Int × Int) :=
  let step := sl.step.getD 1
  if step = 0 then .error (.valueError "slice step cannot be zero")
  else
    let negStep := step < 0
    let start := match sl.start with
      | some v => sliceAdjust length v negStep
      | none => if negStep then length - 1 else 0
    let stop := match sl.stop with
      | some v => sliceAdjust length v negStep
      | none => if negStep then -1 else length
    .ok (start, stop, step)

/-- The number of elements of `range(start, stop, step)` for `step ≠ 0`. -/
def pyRangeLen (start stop step : Int) : Nat :=
  if 0 < step then (((stop - start) + step - 1) / step).toNat
  else (((start - stop) + (-step) - 1) / (-step)).toNat

/-- `range(start, stop, step)` as a list, for `step ≠ 0`. -/
def pyRange (start stop step : Int) : List Int :=
  (List.range (pyRangeLen start stop step)).map (fun k => start + step * k)

/-- The slice branch of `TextFile.__getitem__`:
`[self.getline(i) for i in range(*index.indices(self._length))]`. -/
def getSliceCore (encoding : String) (region : List Char) (offsets : List Nat)
    (sl : PySlice) : Except PyError (List String) :=
  match sliceIndices sl (lengthOf offsets) with
  | .error e => .error e
  | .ok (start, stop, step) =>
      .ok ((pyRange start stop step).map
        (fun i => getlineAt encoding region offsets i.toNat))

def TextFile.getslice (tf : TextFile) (sl : PySlice) :
    Except PyError (List String) :=
  getSliceCore tf.encoding tf.region tf.offsets sl

/-! ### CSV parsing

The record parser models `csv.reader` / `csv.DictReader` on the
quote-free records the library's contract exercises: a row is the split of
a line on the one-character delimiter, a blank line yields the empty row
`[]` (which `DictReader` then skips), and `DictReader` zips the field
names with the row's values. -/

/-- Split a line on a one-character delimiter; `n` delimiters give `n + 1`
fields. -/
def splitFields (delim : Char) : List Char → List (List Char)
  | [] => [[]]
  | c :: cs =>
    match splitFields delim cs with
    | [] => [[c]]
    | f :: fs => if c = delim then [] :: f :: fs else (c :: f) :: fs

/-- One `csv.reader` row per input line: blank lines produce the empty
row, any other line splits on the delimiter. -/
def csvReaderRows (delim : Char) (lines : List String) : List (List String) :=
  lines.map (fun l =>
    if l.data = [] then []
    else (splitFields delim l.data).map List.asString)

/-- `dict(zip(fieldnames, row))` for rows of matching width (the
only shape the contract exercises; `DictReader`'s `restkey`/`restval`
padding is outside the modelled subset). -/
def zipNames (names : List String) (row : List String) :
    List (String × String) :=
  names.zip row

/-- `csv.DictReader` rows: the underlying reader's rows with blank rows
skipped, each zipped with the field names. -/
def dictReaderRows (delim : Char) (names : List String)
    (lines : List String) : List (List (String × String)) :=
  ((csvReaderRows delim lines).filter (fun r => ¬ r = [])).map (zipNames names)

/-- A parsed record: a plain `csv.reader` row, or a `csv.DictReader`
name-to-value mapping. -/
inductive CsvRecord where
  | row (fields : List String)
  | mapping (pairs : List (String × String))
deriving DecidableEq, Repr

/-- The dynamic shape of `CsvFile.__getitem__`'s result: a single record
when exactly one row was parsed, otherwise the list of rows. -/
inductive CsvItem where
  | one (r : CsvRecord)
  | many (rs : List CsvRecord)
deriving DecidableEq, Repr

/-- A Delimited-Record View (`CsvFile`): the `TextFile` state plus the
field delimiter, the header flag and the resolved field names (`some`
exactly when a header was requested, since `__init__` always resolves
names in that case). -/
structure CsvFile where
  path : String
  encoding : String
  region : List Char
  delimiter : Char
  header : Bool
  fieldnames : Option (List String)
deriving DecidableEq, Repr

/-- The construction-time read of the header row:
`next(csv.reader(fp, delimiter=delimiter))`, i.e. the first line of the
file (terminator excluded) split on the delimiter.  (On an empty file the
Python call raises `StopIteration`; no claim constructs that view.) -/
def headerFields (delim : Char) (region : List Char) : List String :=
  (splitFields delim (rstrip linesep (readline (univNewlines region)).1)).map
    List.asString

/-- The field-name resolution of `CsvFile.__init__`: when a header is
requested, an explicit `fieldnames` argument wins, otherwise the first
line of the file is parsed. -/
def resolveFieldnames (delimiter : Char) (header : Bool)
    (fieldnames : Option (List String)) (region : List Char) :
    Option (List String) :=
  if header then
    match fieldnames with
    | some ns => some ns
    | none => some (headerFields delimiter region)
  else none

/-- `CsvFile.__init__`: map the file (failing on a zero-length file),
then resolve the field names when a header is requested. -/
def CsvFile.init (fs : FileSystem) (path : String)
    (encoding : String := "utf-8") (delimiter : Char := ',')
    (header : Bool := false) (fieldnames : Option (List String) := none) :
    Except PyError CsvFile :=
  match mmapRegion (fs path) with
  | .error e => .error e
  | .ok mm =>
    .ok ⟨path, encoding, mm, delimiter, header,
      resolveFieldnames delimiter header fieldnames mm⟩

/-- A successful CSV construction stores the mapped contents and the
resolved field names, and only happens on a nonempty file. -/
theorem csvFile_init_ok (fs : FileSystem) (path enc : String) (d : Char)
    (hdr : Bool) (ns : Option (List String)) (cf : CsvFile)
    (h : CsvFile.init fs path enc d hdr ns = .ok cf) :
    cf = ⟨path, enc, fs path, d, hdr,
      resolveFieldnames d hdr ns (fs path)⟩ ∧ fs path ≠ [] := by
  by_cases he : fs path = []
  · have herr : CsvFile.init fs path enc d hdr ns =
        .error (.valueError "cannot mmap an empty file") := by
      unfold CsvFile.init mmapRegion
      rw [if_pos he]
    rw [herr] at h
    simp at h
  · have hok : CsvFile.init fs path enc d hdr ns =
        .ok ⟨path, enc, fs path, d, hdr,
          resolveFieldnames d hdr ns (fs path)⟩ := by
      unfold CsvFile.init mmapRegion
      rw [if_neg he]
    rw [hok] at h
    injection h with h2
    exact ⟨h2.symm, he⟩

/-- `CsvFile._get_offsets`: the parent offsets, with `offsets.pop(0)`
when a header is present. -/
def CsvFile.offsets (cf : CsvFile) : List Nat :=
  let o := getOffsets cf.region
  if cf.header then o.tail else o

def CsvFile.length (cf : CsvFile) : Int :=
  lengthOf cf.offsets

/-- Parse the raw lines `x` through `self._reader`: `csv.DictReader`
with the resolved field names when a header was requested, else
`csv.reader`. -/
def CsvFile.parseRows (cf : CsvFile) (lines : List String) : List CsvRecord :=
  match cf.fieldnames with
  | some names => (dictReaderRows cf.delimiter names lines).map .mapping
  | none => (csvReaderRows cf.delimiter lines).map .row

/-- Collapse `row` to a single record exactly when one row was parsed
(`if len(row) == 1: return row[0]`). -/
def collapseRows (rows : List CsvRecord) : CsvItem :=
  match rows with
  | [r] => .one r
  | rs => .many rs

/-- The integer branch of `CsvFile.__getitem__`. -/
def CsvFile.getitem (cf : CsvFile) (index : Int) : Except PyError CsvItem :=
  match getitemCore cf.encoding cf.region cf.offsets index with
  | .error e => .error e
  | .ok s => .ok (collapseRows (cf.parseRows [s]))

/-- The slice branch of `CsvFile.__getitem__`. -/
def CsvFile.getslice (cf : CsvFile) (sl : PySlice) : Except PyError CsvItem :=
  match getSliceCore cf.encoding cf.region cf.offsets sl with
  | .error e => .error e
  | .ok xs => .ok (collapseRows (cf.parseRows xs))

/-- `CsvFile.__getstate__` (inherited): the instance attributes minus the
mapping. -/
structure CsvFileState where
  path : String
  encoding : String
  delimiter : Char
  header : Bool
  fieldnames : Option (List String)
deriving DecidableEq, Repr

def CsvFile.getstate (cf : CsvFile) : CsvFileState :=
  { path := cf.path, encoding := cf.encoding, delimiter := cf.delimiter,
    header := cf.header, fieldnames := cf.fieldnames }

/-- `CustomNewlineTextFile.__getstate__` (inherited). -/
structure CustomNewlineTextFileState where
  path : String
  encoding : String
  newline : List Char
deriving DecidableEq, Repr

def CustomNewlineTextFile.getstate (tf : CustomNewlineTextFile) :
    CustomNewlineTextFileState :=
  { path := tf.path, encoding := tf.encoding, newline := tf.newline }

/-! ### The offset table against the line decomposition -/

/-- Total byte length of a list of raw lines. -/
def sumLen (ls : List (List Char)) : Nat :=
  (ls.map List.length).sum

theorem splitLines_flatten (s : List Char) : (splitLines s).flatten = s := by
  induction s using readline_induction with
  | base => simp [splitLines_nil]
  | step s h ih =>
    rw [splitLines_cons s h, List.flatten_cons, ih, readline_append]

theorem tellOffsets_length (s : List Char) (pos : Nat) :
    (tellOffsets s pos).length = (splitLines s).length := by
  induction s using readline_induction generalizing pos with
  | base => simp [splitLines_nil, tellOffsets_nil]
  | step s h ih =>
    rw [splitLines_cons s h, tellOffsets_cons s pos h]
    simp [ih]

theorem getOffsets_length (region : List Char) :
    (getOffsets region).length = (splitLines region).length + 1 := by
  simp [getOffsets, tellOffsets_length]

theorem splitLines_mem_ne_nil (s : List Char) :
    ∀ l ∈ splitLines s, l ≠ [] := by
  induction s using readline_induction with
  | base => simp [splitLines_nil]
  | step s h ih =>
    rw [splitLines_cons s h]
    intro l hl
    rcases List.mem_cons.mp hl with rfl | hl
    · exact readline_fst_ne_nil s h
    · exact ih l hl

theorem tellOffsets_getD (s : List Char) (pos i : Nat)
    (h : i < (splitLines s).length) :
    (tellOffsets s pos).getD i 0 = pos + sumLen ((splitLines s).take (i + 1)) := by
  induction s using readline_induction generalizing pos i with
  | base => simp [splitLines_nil] at h
  | step s hs ih =>
    rw [splitLines_cons s hs] at h ⊢
    rw [tellOffsets_cons s pos hs]
    cases i with
    | zero =>
      simp [sumLen]
    | succ j =>
      have hj : j < (splitLines (readline s).2).length := by
        simpa using h
      rw [List.getD_cons_succ, ih _ _ hj]
      simp [sumLen, Nat.add_assoc]

theorem getOffsets_getD (region : List Char) (i : Nat)
    (h : i ≤ (splitLines region).length) :
    (getOffsets region).getD i 0 = sumLen ((splitLines region).take i) := by
  cases i with
  | zero => simp [getOffsets, sumLen]
  | succ j =>
    have hj : j < (splitLines region).length := h
    rw [getOffsets, List.getD_cons_succ, tellOffsets_getD region 0 j hj]
    simp

theorem sumLen_take_add (ls : List (List Char)) (i k : Nat) :
    sumLen (ls.take (i + k)) =
      sumLen (ls.take i) + sumLen ((ls.drop i).take k) := by
  rw [sumLen, List.take_add, List.map_append, List.sum_append]
  rfl

theorem flatten_drop_sumLen (ls : List (List Char)) (i : Nat) :
    ls.flatten.drop (sumLen (ls.take i)) = (ls.drop i).flatten := by
  induction ls generalizing i with
  | nil => simp [sumLen]
  | cons l rest ih =>
    cases i with
    | zero => simp [sumLen]
    | succ j =>
      have hs : sumLen (l :: rest.take j) = l.length + sumLen (rest.take j) := by
        simp [sumLen]
      simp only [List.take_succ_cons, List.drop_succ_cons, List.flatten_cons, hs]
      rw [List.drop_append, ih]

/-- On a file free of carriage returns, text-mode reading is the identity
translation. -/
theorem univNewlines_of_no_cr (s : List Char) (h : '\r' ∉ s) :
    univNewlines s = s := by
  induction s with
  | nil => rfl
  | cons c cs ih =>
    have hc : c ≠ '\r' := fun e => h (e ▸ List.mem_cons_self c cs)
    have hcs : '\r' ∉ cs := fun m => h (List.mem_cons_of_mem c m)
    rw [univNewlines_cons_ne c cs hc]
    exact congrArg (c :: ·) (ih hcs)

/-- The byte range between consecutive offsets is exactly the
corresponding raw line. -/
theorem pySlice_offsets (region : List Char) (i : Nat)
    (h : i < (splitLines region).length) :
    pySlice region (sumLen ((splitLines region).take i))
      (sumLen ((splitLines region).take (i + 1))) =
      (splitLines region).getD i [] := by
  set ls := splitLines region with hls
  have h1 : region.drop (sumLen (ls.take i)) = (ls.drop i).flatten := by
    conv_lhs => rw [← splitLines_flatten region]
    exact flatten_drop_sumLen ls i
  have h2 : ls.drop i = ls.getD i [] :: ls.drop (i + 1) := by
    rw [List.getD_eq_getElem ls [] h]
    exact List.drop_eq_getElem_cons h
  have h3 : sumLen (ls.take (i + 1)) =
      sumLen (ls.take i) + (ls.getD i []).length := by
    rw [sumLen_take_add ls i 1, h2]
    simp [sumLen]
  rw [pySlice, h1, h2, h3, List.flatten_cons, Nat.add_sub_cancel_left,
    List.take_left]

/-- `getline` returns the `i`-th raw line, terminator stripped. -/
theorem getlineAt_eq_line (enc : String) (region : List Char) (i : Nat)
    (h : i < (splitLines region).length) :
    getlineAt enc region (getOffsets region) i =
      decode enc (rstrip linesep ((splitLines region).getD i [])) := by
  unfold getlineAt
  rw [getOffsets_getD region i (le_of_lt h),
    getOffsets_getD region (i + 1) h, pySlice_offsets region i h]

/-! ### Raw-line decompositions and the `iterate` loop -/

/-- The shape invariant of a raw-line decomposition: every line is
nonempty and newline-free before its last byte, and every line followed
by another ends in a newline. -/
def ChunksOk : List (List Char) → Prop
  | [] => True
  | l :: ls => l ≠ [] ∧ (∀ c ∈ l.dropLast, c ≠ '\n') ∧
      (ls = [] ∨ l.getLast? = some '\n') ∧ ChunksOk ls

theorem readline_fst_dropLast (s : List Char) :
    ∀ c ∈ (readline s).1.dropLast, c ≠ '\n' := by
  induction s with
  | nil => simp [readline]
  | cons c cs ih =>
    by_cases hc : c = '\n'
    · simp [readline, hc]
    · simp only [readline, hc, if_false]
      rcases hp : (readline cs).1 with _ | ⟨d, ds⟩
      · simp
      · intro x hx
        rw [List.dropLast_cons₂] at hx
        rcases List.mem_cons.mp hx with rfl | hx
        · exact hc
        · exact ih x (by rw [hp]; exact hx)

theorem readline_fst_terminated (s : List Char)
    (h : (readline s).2 ≠ []) : (readline s).1.getLast? = some '\n' := by
  induction s with
  | nil => simp [readline] at h
  | cons c cs ih =>
    by_cases hc : c = '\n'
    · simp [readline, hc]
    · simp only [readline, hc, if_false] at h ⊢
      have hcs : cs ≠ [] := by
        intro e
        rw [e] at h
        simp [readline] at h
      have h1 : (readline cs).1 ≠ [] := readline_fst_ne_nil cs hcs
      rw [List.getLast?_cons]
      rw [ih h]
      rcases hp : (readline cs).1 with _ | ⟨d, ds⟩
      · exact absurd hp h1
      · simp

theorem splitLines_chunksOk (s : List Char) : ChunksOk (splitLines s) := by
  induction s using readline_induction with
  | base => simp [splitLines_nil, ChunksOk]
  | step s h ih =>
    rw [splitLines_cons s h]
    refine ⟨readline_fst_ne_nil s h, readline_fst_dropLast s, ?_, ih⟩
    by_cases h2 : splitLines (readline s).2 = []
    · exact Or.inl h2
    · refine Or.inr (readline_fst_terminated s ?_)
      intro e
      rw [e, splitLines_nil] at h2
      exact h2 rfl

theorem chunksOk_tail {l : List Char} {ls : List (List Char)}
    (h : ChunksOk (l :: ls)) : ChunksOk ls := h.2.2.2

theorem chunksOk_drop (ls : List (List Char)) (i : Nat)
    (h : ChunksOk ls) : ChunksOk (ls.drop i) := by
  induction i generalizing ls with
  | zero => exact h
  | succ j ih =>
    cases ls with
    | nil => simp [ChunksOk]
    | cons l rest => exact ih rest (chunksOk_tail h)

/-- `readline` applied to a well-formed line followed by anything it is
allowed to be followed by returns exactly that line. -/
theorem readline_chunk (l rest : List Char) (hne : l ≠ [])
    (hnl : ∀ c ∈ l.dropLast, c ≠ '\n')
    (hterm : l.getLast? = some '\n' ∨ rest = []) :
    readline (l ++ rest) = (l, rest) := by
  induction l with
  | nil => exact absurd rfl hne
  | cons c cs ih =>
    cases cs with
    | nil =>
      by_cases hc : c = '\n'
      · simp [readline, hc]
      · have hrest : rest = [] := by
          rcases hterm with ht | ht
          · simp at ht
            exact absurd ht hc
          · exact ht
        subst hrest
        simp [readline, hc]
    | cons d ds =>
      have hc : c ≠ '\n' := by
        apply hnl
        rw [List.dropLast_cons₂]
        exact List.mem_cons_self c _
      have hih : readline ((d :: ds) ++ rest) = (d :: ds, rest) := by
        apply ih (by simp)
        · intro x hx
          apply hnl
          rw [List.dropLast_cons₂]
          exact List.mem_cons_of_mem c hx
        · rcases hterm with ht | ht
          · rw [List.getLast?_cons] at ht
            left
            rcases hq : (d :: ds).getLast? with _ | q
            · have : (d :: ds).getLast? ≠ none := by
                rw [List.getLast?_cons]
                simp
              exact absurd hq this
            · rw [hq] at ht
              simp only [Option.getD_some, Option.some.injEq] at ht
              rw [ht]
          · exact Or.inr ht
      rw [List.cons_append, readline_cons_of_ne c _ hc, hih]

/-- Reading from the flattening of a well-formed decomposition peels its
first line. -/
theorem readline_flatten {l : List Char} {ls : List (List Char)}
    (h : ChunksOk (l :: ls)) :
    readline (l ++ ls.flatten) = (l, ls.flatten) := by
  obtain ⟨hne, hnl, hterm, _⟩ := h
  apply readline_chunk l ls.flatten hne hnl
  rcases hterm with ht | ht
  · simp [ht]
  · exact Or.inl ht

/-- The `iterate` loop over the flattening of a well-formed decomposition,
targeted at the offset `k` lines ahead, yields exactly those `k` lines
stripped. -/
theorem iterateLoop_flatten (enc : String) :
    ∀ (ls : List (List Char)) (k pos : Nat), ChunksOk ls → k ≤ ls.length →
    iterateLoop enc ls.flatten pos (pos + sumLen (ls.take k)) =
      (ls.take k).map (fun l => decode enc (rstrip linesep l)) := by
  intro ls
  induction ls with
  | nil =>
    intro k pos _ hk
    have hk0 : k = 0 := Nat.le_zero.mp hk
    subst hk0
    rw [iterateLoop_eq]
    simp [sumLen]
  | cons l rest ih =>
    intro k pos hok hk
    cases k with
    | zero =>
      rw [iterateLoop_eq]
      simp [sumLen]
    | succ j =>
      have hlpos : 0 < l.length := List.length_pos.mpr hok.1
      have hsum : sumLen ((l :: rest).take (j + 1)) =
          l.length + sumLen (rest.take j) := by
        simp [sumLen]
      have hne : pos ≠ pos + sumLen ((l :: rest).take (j + 1)) := by
        rw [hsum]
        omega
      have hflat : l ++ rest.flatten ≠ [] :=
        fun e => hok.1 (List.append_eq_nil.mp e).1
      rw [List.flatten_cons, iterateLoop_eq]
      simp only [if_neg hne, if_neg hflat, readline_flatten hok]
      rw [hsum, ← Nat.add_assoc]
      rw [ih j (pos + l.length) (chunksOk_tail hok) (Nat.le_of_succ_le_succ hk)]
      simp

/-! ### The custom-delimiter scan against the occurrence count -/

theorem findAux_shift (sub : List Char) :
    ∀ (s : List Char) (idx : Nat),
    findAux sub s idx = (findAux sub s 0).map (· + idx) := by
  intro s
  induction s with
  | nil =>
    intro idx
    by_cases h : sub.isPrefixOf ([] : List Char) <;> simp [findAux, h]
  | cons c rest ih =>
    intro idx
    by_cases h : sub.isPrefixOf (c :: rest)
    · simp [findAux, h]
    · rw [findAux, if_neg h]
      conv_rhs => rw [findAux, if_neg h]
      rw [ih (idx + 1), ih 1, Option.map_map]
      congr 1
      funext t
      simp
      omega

theorem nonOverlapCount_head_match (pat s : List Char) (hne : pat ≠ [])
    (hpre : pat.isPrefixOf s) :
    nonOverlapCount pat s = nonOverlapCount pat (s.drop pat.length) + 1 := by
  have hlen : 0 < pat.length := List.length_pos.mpr hne
  have hle : pat.length ≤ s.length :=
    (List.isPrefixOf_iff_prefix.mp hpre).length_le
  show nonOverlapCountFuel pat (s.length + 1) s = _
  rw [nonOverlapCountFuel, if_pos ⟨hne, hpre⟩]
  rw [nonOverlapCountFuel_congr pat s.length ((s.drop pat.length).length + 1)
    (s.drop pat.length) (by rw [List.length_drop]; omega)
    (by omega)]
  rfl

theorem nonOverlapCount_nil (pat : List Char) (hne : pat ≠ []) :
    nonOverlapCount pat [] = 0 := by
  have hnp : ¬ (pat ≠ [] ∧ pat.isPrefixOf ([] : List Char)) := by
    rintro ⟨_, hp⟩
    rcases pat with _ | ⟨c, cs⟩
    · exact hne rfl
    · simp [List.isPrefixOf] at hp
  show nonOverlapCountFuel pat 1 [] = 0
  rw [nonOverlapCountFuel, if_neg hnp, if_pos rfl]

theorem nonOverlapCount_cons_no_match (pat : List Char) (c : Char)
    (rest : List Char) (h : ¬ pat.isPrefixOf (c :: rest)) :
    nonOverlapCount pat (c :: rest) = nonOverlapCount pat rest := by
  have hnp : ¬ (pat ≠ [] ∧ pat.isPrefixOf (c :: rest)) := fun hp => h hp.2
  show nonOverlapCountFuel pat ((c :: rest).length + 1) (c :: rest) = _
  rw [nonOverlapCountFuel, if_neg hnp,
    if_neg (by simp : ¬ (c :: rest) = [])]
  rfl

/-- The occurrence count in terms of the next match position. -/
theorem nonOverlapCount_eq_findAux (pat : List Char) (hne : pat ≠ []) :
    ∀ s : List Char,
    nonOverlapCount pat s =
      match findAux pat s 0 with
      | none => 0
      | some t => nonOverlapCount pat (s.drop (t + pat.length)) + 1 := by
  intro s
  induction s with
  | nil =>
    have hp : ¬ pat.isPrefixOf ([] : List Char) := by
      rcases pat with _ | ⟨c, cs⟩
      · exact absurd rfl hne
      · simp [List.isPrefixOf]
    rw [findAux, if_neg hp]
    exact nonOverlapCount_nil pat hne
  | cons c rest ih =>
    by_cases hp : pat.isPrefixOf (c :: rest)
    · rw [findAux, if_pos hp]
      show nonOverlapCount pat (c :: rest) =
        nonOverlapCount pat ((c :: rest).drop (0 + pat.length)) + 1
      rw [Nat.zero_add]
      exact nonOverlapCount_head_match pat (c :: rest) hne hp
    · rw [findAux, if_neg hp]
      rw [show (0 : Nat) + 1 = 1 from rfl]
      rw [nonOverlapCount_cons_no_match pat c rest hp,
        findAux_shift pat rest 1, ih]
      rcases hf : findAux pat rest 0 with _ | t
      · rfl
      · show nonOverlapCount pat (rest.drop (t + pat.length)) + 1 =
          nonOverlapCount pat ((c :: rest).drop (t + 1 + pat.length)) + 1
        rw [show t + 1 + pat.length = (t + pat.length) + 1 by omega,
          List.drop_succ_cons]

/-- The scan loop records one offset per occurrence when given enough
fuel. -/
theorem customOffsetsAux_length (region newline : List Char)
    (hne : newline ≠ []) :
    ∀ (fuel start : Nat),
    nonOverlapCount newline (region.drop start) ≤ fuel →
    (customOffsetsAux region newline fuel start).length =
      nonOverlapCount newline (region.drop start) := by
  intro fuel
  induction fuel with
  | zero =>
    intro start h
    rw [customOffsetsAux]
    exact (Nat.le_zero.mp h).symm
  | succ f ih =>
    intro start h
    rw [customOffsetsAux, findFrom, findAux_shift]
    have hcount := nonOverlapCount_eq_findAux newline hne (region.drop start)
    rcases hf : findAux newline (region.drop start) 0 with _ | t
    · rw [hf] at hcount
      have hc0 : nonOverlapCount newline (region.drop start) = 0 := hcount
      exact hc0.symm
    · rw [hf] at hcount
      have hcount2 : nonOverlapCount newline (region.drop start) =
          nonOverlapCount newline (region.drop (start + (t + newline.length))) + 1 := by
        have h0 : nonOverlapCount newline (region.drop start) =
            nonOverlapCount newline
              ((region.drop start).drop (t + newline.length)) + 1 := hcount
        rw [List.drop_drop] at h0
        exact h0
      have harith : t + start + newline.length = start + (t + newline.length) := by
        omega
      have hle : nonOverlapCount newline
          (region.drop (start + (t + newline.length))) ≤ f := by
        omega
      show (customOffsetsAux region newline f (t + start + newline.length)).length + 1 =
        nonOverlapCount newline (region.drop start)
      rw [ih (t + start + newline.length) (by rw [harith]; exact hle)]
      rw [harith]
      exact hcount2.symm

theorem nonOverlapCount_le_length (pat : List Char) (hne : pat ≠ []) :
    ∀ (n : Nat) (s : List Char), s.length ≤ n →
    nonOverlapCount pat s ≤ s.length := by
  intro n
  induction n with
  | zero =>
    intro s hs
    have : s = [] := List.length_eq_zero.mp (Nat.le_zero.mp hs)
    subst this
    rw [nonOverlapCount_nil pat hne]
    exact Nat.zero_le _
  | succ m ih =>
    intro s hs
    by_cases hp : pat.isPrefixOf s
    · rw [nonOverlapCount_head_match pat s hne hp]
      have h1 : 1 ≤ pat.length := List.length_pos.mpr hne
      have h2 : pat.length ≤ s.length :=
        (List.isPrefixOf_iff_prefix.mp hp).length_le
      have h3 : (s.drop pat.length).length ≤ m := by
        rw [List.length_drop]
        omega
      have h4 := ih (s.drop pat.length) h3
      rw [List.length_drop] at h4
      omega
    · cases s with
      | nil =>
        rw [nonOverlapCount_nil pat hne]
        exact Nat.zero_le _
      | cons c rest =>
        rw [nonOverlapCount_cons_no_match pat c rest hp]
        have := ih rest (by simpa using Nat.le_of_succ_le_succ hs)
        simp only [List.length_cons]
        omega

/-- The Custom-Delimiter view's record count is exactly the number of
(leftmost, non-overlapping) delimiter occurrences. -/
theorem customGetOffsets_lengthOf (region newline : List Char)
    (hne : newline ≠ []) :
    lengthOf (customGetOffsets region newline) =
      (nonOverlapCount newline region : Int) := by
  have hfuel : nonOverlapCount newline (region.drop 0) ≤ region.length + 1 := by
    rw [List.drop_zero]
    exact Nat.le_succ_of_le
      (nonOverlapCount_le_length newline hne region.length region (le_refl _))
  have := customOffsetsAux_length region newline hne (region.length + 1) 0 hfuel
  rw [List.drop_zero] at this
  unfold customGetOffsets lengthOf
  rw [List.length_cons, this]
  omega

/-! ### Generic bridging between list maps and index ranges -/

theorem map_drop_take_eq_range'_map {α β : Type _} (ls : List α) (d : α)
    (i k : Nat) (h : i + k ≤ ls.length) (f : α → β) (g : Nat → β)
    (hfg : ∀ j, j < ls.length → g j = f (ls.getD j d)) :
    ((ls.drop i).take k).map f = (List.range' i k).map g := by
  apply List.ext_getElem
  · simp only [List.length_map, List.length_take, List.length_drop,
      List.length_range']
    omega
  · intro n h1 h2
    simp only [List.length_map, List.length_take, List.length_drop] at h1
    have hn : n < k := lt_of_lt_of_le h1 (min_le_left _ _)
    have hin : i + n < ls.length := by omega
    rw [List.getElem_map, List.getElem_map, List.getElem_take,
      List.getElem_drop, List.getElem_range']
    rw [hfg (i + 1 * n) (by omega), List.getD_eq_getElem ls d (by omega)]
    simp

theorem TextFile.length_eq_lines (tf : TextFile) :
    tf.length = ((splitLines tf.region).length : Int) := by
  unfold TextFile.length TextFile.offsets lengthOf
  rw [getOffsets_length]
  omega

theorem lengthOf_getOffsets (region : List Char) :
    lengthOf (getOffsets region) = ((splitLines region).length : Int) := by
  unfold lengthOf
  rw [getOffsets_length]
  omega

/-- The explicit normalization `__getitem__` applies to an index. -/
def pyNormIdx (index length : Int) : Int :=
  if index < 0 then index + length else index

theorem getitemCore_ok_of_lt (enc : String) (region : List Char)
    (offsets : List Nat) (index : Int) (h0 : 0 ≤ index)
    (hlt : index < lengthOf offsets) :
    getitemCore enc region offsets index =
      .ok (getlineAt enc region offsets index.toNat) := by
  unfold getitemCore
  rw [if_pos h0, if_neg (by omega)]

theorem getitemCore_error_iff (enc : String) (region : List Char)
    (offsets : List Nat) (index : Int) :
    getitemCore enc region offsets index =
        .error (.indexError "Text object index out of range") ↔
      (pyNormIdx index (lengthOf offsets) < 0 ∨
        lengthOf offsets ≤ pyNormIdx index (lengthOf offsets)) := by
  unfold getitemCore pyNormIdx
  split_ifs <;> simp <;> omega

theorem TextFile.length_nonneg (tf : TextFile) : 0 ≤ tf.length := by
  rw [tf.length_eq_lines]
  exact Int.ofNat_nonneg _

/-! ### Scenario fixtures -/

set_option maxRecDepth 100000

/-- The 100-line default-newline fixture and a view over it. -/
def fsW : FileSystem := fun _ => "aa\nb\nccc\n".data

/-- The view `TextFile.__init__` builds over `fsW`. -/
def tfW : TextFile := ⟨"w.txt", "utf-8", "aa\nb\nccc\n".data⟩

theorem tfW_init : TextFile.init fsW "w.txt" "utf-8" = .ok tfW := by decide

/-- Scenario D: one hundred `"line #i\n\n"` blocks. -/
def scenarioD : List Char :=
  ((List.range 100).map (fun i => "line #" ++ toString i ++ "\n\n")).flatMap
    String.data

def fsD : FileSystem := fun _ => scenarioD

/-- The view `CustomNewlineTextFile.__init__` builds over `fsD`. -/
def tfD : CustomNewlineTextFile := ⟨"d.txt", "utf-8", scenarioD, ['\n', '\n']⟩

theorem tfD_init :
    CustomNewlineTextFile.init fsD "d.txt" "\n\n" "utf-8" = .ok tfD := by
  decide

/-- Scenario B/C: the two-column CSV fixture. -/
def scenarioB : List Char :=
  ("en,ja\nthis is English .,this is Japanese .\n" ++
    "this is also English .,this is also Japanese .\n").data

def fsB : FileSystem := fun _ => scenarioB

/-- The view `CsvFile.__init__` builds over `fsB` with a header. -/
def csvB : CsvFile := ⟨"b.csv", "utf-8", scenarioB, ',', true, some ["en", "ja"]⟩

theorem csvB_init : CsvFile.init fsB "b.csv" "utf-8" ',' true none = .ok csvB := by
  decide

/-- The view `CsvFile.__init__` builds over `fsB` without a header. -/
def csvC : CsvFile := ⟨"b.csv", "utf-8", scenarioB, ',', false, none⟩

theorem csvC_init :
    CsvFile.init fsB "b.csv" "utf-8" ',' false none = .ok csvC := by
  decide

/-- A CSV file whose first data line is blank. -/
def scenarioBlank : List Char := "en,ja\n\nx,y\n".data

def fsBlank : FileSystem := fun _ => scenarioBlank

/-- The view `CsvFile.__init__` builds over `fsBlank` with a header. -/
def csvBlank : CsvFile :=
  ⟨"h.csv", "utf-8", scenarioBlank, ',', true, some ["en", "ja"]⟩

theorem csvBlank_init :
    CsvFile.init fsBlank "h.csv" "utf-8" ',' true none = .ok csvBlank := by
  decide

/-- Offset-table fixtures of different shapes over the same path. -/
def fsSmall : FileSystem := fun _ => "a\nb\n".data

def fsBig : FileSystem := fun _ => "x\ny\nz\n".data

def tfSmall : TextFile := ⟨"p", "utf-8", "a\nb\n".data⟩

def tfBig : TextFile := ⟨"p", "utf-8", "x\ny\nz\n".data⟩

/-! ### Claims -/

/-- C1: for every TextFile over a default-newline file and every valid
index `i` in `[0, length)`, `get(i)` returns the bytes of the half-open
range `[offset[i], offset[i+1])` decoded with the configured encoding and
with the trailing line-terminator sequence stripped (equivalently, the
`i`-th raw line stripped). -/
theorem claim_C1 (tf : TextFile) (i : Nat) (h : (i : Int) < tf.length) :
    tf.getitem i = .ok (decode tf.encoding (rstrip linesep
      (pySlice tf.region (tf.offsets.getD i 0) (tf.offsets.getD (i + 1) 0)))) ∧
    tf.getitem i = .ok (decode tf.encoding (rstrip linesep
      ((splitLines tf.region).getD i []))) := by
  have h0 : (0 : Int) ≤ (i : Int) := Int.ofNat_nonneg i
  have hok := getitemCore_ok_of_lt tf.encoding tf.region tf.offsets i h0 h
  have htn : ((i : Int)).toNat = i := by omega
  rw [htn] at hok
  have hi : i < (splitLines tf.region).length := by
    rw [tf.length_eq_lines] at h
    exact_mod_cast h
  constructor
  · rw [TextFile.getitem, hok]
    rfl
  · rw [TextFile.getitem, hok]
    exact congrArg Except.ok (getlineAt_eq_line tf.encoding tf.region i hi)

theorem claim_C1_witness :
    ((1 : Int) < tfW.length) ∧
    (tfW.getitem 1 = .ok (decode tfW.encoding (rstrip linesep
      (pySlice tfW.region (tfW.offsets.getD 1 0) (tfW.offsets.getD 2 0)))) ∧
    tfW.getitem 1 = .ok (decode tfW.encoding (rstrip linesep
      ((splitLines tfW.region).getD 1 [])))) :=
  ⟨by decide, claim_C1 tfW 1 (by decide)⟩

/-- C2: indexed access normalizes negative indices Python-style
(`get(i) = get(i + length)` on `[-length, -1]`), and raises the
out-of-range `IndexError` exactly when the normalized index falls outside
`[0, length)`; in particular at `length` and `-length - 1`. -/
theorem claim_C2 (tf : TextFile) (i : Int) :
    ((-tf.length ≤ i ∧ i ≤ -1) → tf.getitem i = tf.getitem (i + tf.length)) ∧
    (tf.getitem i = .error (.indexError "Text object index out of range") ↔
      (pyNormIdx i tf.length < 0 ∨ tf.length ≤ pyNormIdx i tf.length)) ∧
    tf.getitem tf.length =
      .error (.indexError "Text object index out of range") ∧
    tf.getitem (-tf.length - 1) =
      .error (.indexError "Text object index out of range") := by
  have hnn : 0 ≤ tf.length := tf.length_nonneg
  have hL : tf.length = lengthOf tf.offsets := rfl
  refine ⟨?_, ?_, ?_, ?_⟩
  · rintro ⟨hl, hr⟩
    rw [hL] at hl
    show getitemCore tf.encoding tf.region tf.offsets i =
      getitemCore tf.encoding tf.region tf.offsets (i + lengthOf tf.offsets)
    unfold getitemCore
    rw [if_neg (by omega), if_neg (by omega), if_pos (by omega),
      if_neg (by omega)]
  · exact getitemCore_error_iff tf.encoding tf.region tf.offsets i
  · have := (getitemCore_error_iff tf.encoding tf.region tf.offsets
      tf.length).mpr
    apply this
    rw [pyNormIdx, if_neg (by omega)]
    omega
  · have := (getitemCore_error_iff tf.encoding tf.region tf.offsets
      (-tf.length - 1)).mpr
    apply this
    rw [pyNormIdx, if_pos (by omega)]
    rw [hL] at hnn ⊢
    omega

theorem claim_C2_witness :
    (-tfW.length ≤ -2 ∧ (-2 : Int) ≤ -1) ∧
    tfW.getitem (-2) = tfW.getitem (-2 + tfW.length) :=
  ⟨by constructor <;> decide, (claim_C2 tfW (-2)).1 (by constructor <;> decide)⟩

/-- C9: the spec requires a zero-length file to be treated as zero lines
(offset table `[0]`, length `0`) with construction succeeding, but
`TextFile.__init__` raises `ValueError("cannot mmap an empty file")` from
`mmap.mmap(fd, 0)` before the index is ever built; the index builder by
itself, applied to an empty region, would indeed produce `[0]` and
length `0`. -/
theorem claim_C9 (path enc : String) :
    TextFile.init (fun _ => []) path enc =
      .error (.valueError "cannot mmap an empty file") ∧
    getOffsets [] = [0] ∧
    lengthOf (getOffsets []) = 0 := by
  refine ⟨?_, rfl, rfl⟩
  unfold TextFile.init mmapRegion
  rw [if_pos rfl]

/-- C7: deserializing the serialized state of a successfully constructed
view (over the unchanged file system) succeeds and restores the identical
view: same path, and `get(i)` agreeing with the original at every
index. -/
theorem claim_C7 (fs : FileSystem) (path enc : String) (tf : TextFile)
    (hinit : TextFile.init fs path enc = .ok tf) :
    TextFile.setstate fs tf.getstate = .ok tf ∧
    ∀ tf2 : TextFile, TextFile.setstate fs tf.getstate = .ok tf2 →
      tf2.path = tf.path ∧ ∀ i : Int, tf2.getitem i = tf.getitem i := by
  obtain ⟨h1, hne⟩ := textFile_init_ok fs path enc tf hinit
  subst h1
  have hset : TextFile.setstate fs
      (TextFile.getstate ⟨path, enc, fs path⟩) = .ok ⟨path, enc, fs path⟩ := by
    unfold TextFile.setstate TextFile.getstate mmapRegion
    rw [if_neg hne]
  refine ⟨hset, ?_⟩
  intro tf2 h2
  rw [hset] at h2
  injection h2 with h3
  rw [← h3]
  exact ⟨rfl, fun _ => rfl⟩

theorem claim_C7_witness :
    TextFile.setstate fsW tfW.getstate = .ok tfW :=
  (claim_C7 fsW "w.txt" "utf-8" tfW (by decide)).1

/-- C8 counterexample: two views with different built offset tables and
lengths serialize to the identical snapshot, so the snapshot cannot
contain the offset table or the length. -/
theorem claim_C8_counterexample :
    TextFile.init fsSmall "p" "utf-8" = .ok tfSmall ∧
    TextFile.init fsBig "p" "utf-8" = .ok tfBig ∧
    tfSmall.getstate = tfBig.getstate ∧
    tfSmall.offsets ≠ tfBig.offsets ∧
    tfSmall.length ≠ tfBig.length :=
  ⟨by decide, by decide, rfl, by decide, by decide⟩

/-- C8 (amended): the snapshot contains exactly the path, the encoding
and the delimiter/header/newline metadata of the variant, excludes the
live mapping, and is insensitive to the mapped contents — in particular
it contains neither the offset table nor the length, which are rebuilt
lazily after restoration. -/
theorem claim_C8_amended :
    (∀ tf : TextFile,
      tf.getstate = ⟨tf.path, tf.encoding⟩ ∧
      ∀ r : List Char,
        (TextFile.mk tf.path tf.encoding r).getstate = tf.getstate) ∧
    (∀ cf : CsvFile,
      cf.getstate =
        ⟨cf.path, cf.encoding, cf.delimiter, cf.header, cf.fieldnames⟩ ∧
      ∀ r : List Char,
        (CsvFile.mk cf.path cf.encoding r cf.delimiter cf.header
          cf.fieldnames).getstate = cf.getstate) ∧
    (∀ tf : CustomNewlineTextFile,
      tf.getstate = ⟨tf.path, tf.encoding, tf.newline⟩ ∧
      ∀ r : List Char,
        (CustomNewlineTextFile.mk tf.path tf.encoding r
          tf.newline).getstate = tf.getstate) :=
  ⟨fun _ => ⟨rfl, fun _ => rfl⟩, fun _ => ⟨rfl, fun _ => rfl⟩,
    fun _ => ⟨rfl, fun _ => rfl⟩⟩

/-- C4: over a default-newline file (no carriage returns), a full
top-to-bottom iteration pass through a successfully constructed view
yields exactly the sequence of indexed accesses
`get(0) .. get(length - 1)` in order. -/
theorem claim_C4 (fs : FileSystem) (path enc : String) (tf : TextFile)
    (hinit : TextFile.init fs path enc = .ok tf)
    (hcr : '\r' ∉ fs path) :
    TextFile.iterLines fs tf =
      (List.range tf.length.toNat).map tf.getline := by
  obtain ⟨h1, -⟩ := textFile_init_ok fs path enc tf hinit
  have hreg : fs tf.path = tf.region := by rw [h1]
  have hcr2 : '\r' ∉ tf.region := by
    rw [h1]
    exact hcr
  have hlen : tf.length.toNat = (splitLines tf.region).length := by
    rw [tf.length_eq_lines]
    exact Int.toNat_natCast _
  rw [TextFile.iterLines, hreg, univNewlines_of_no_cr tf.region hcr2, hlen,
    List.range_eq_range']
  have hmain := map_drop_take_eq_range'_map (splitLines tf.region) [] 0
    (splitLines tf.region).length (by omega)
    (fun l => decode tf.encoding (rstrip linesep l)) tf.getline
    (fun j hj => getlineAt_eq_line tf.encoding tf.region j hj)
  rw [List.drop_zero, List.take_length] at hmain
  exact hmain

theorem claim_C4_witness :
    (TextFile.init fsW "w.txt" "utf-8" = .ok tfW) ∧ ('\r' ∉ fsW "w.txt") ∧
    TextFile.iterLines fsW tfW =
      (List.range tfW.length.toNat).map tfW.getline :=
  ⟨by decide, by decide,
    claim_C4 fsW "w.txt" "utf-8" tfW (by decide) (by decide)⟩

/-- C5: ranged iteration rejects `start > end` with the invalid-range
`ValueError`, and for `start ≤ end` with both bounds inside the offset
table it yields exactly the lines `start .. end - 1` in order,
terminators stripped. -/
theorem claim_C5 (tf : TextFile) (start fin : Nat) :
    (start > fin → tf.iterate start fin =
      .error (.valueError "end should be larger than start.")) ∧
    (start ≤ fin → fin < tf.offsets.length →
      tf.iterate start fin =
        .ok ((List.range' start (fin - start)).map tf.getline)) := by
  constructor
  · intro hgt
    rw [TextFile.iterate, if_pos hgt]
  · intro hle hfin
    have hlines : fin ≤ (splitLines tf.region).length := by
      have := getOffsets_length tf.region
      rw [show tf.offsets = getOffsets tf.region from rfl] at hfin
      omega
    have hstart : start ≤ (splitLines tf.region).length := le_trans hle hlines
    rw [TextFile.iterate, if_neg (by omega), if_pos hfin]
    rw [show tf.offsets = getOffsets tf.region from rfl]
    rw [getOffsets_getD tf.region start hstart,
      getOffsets_getD tf.region fin hlines]
    have hdrop : tf.region.drop (sumLen ((splitLines tf.region).take start)) =
        ((splitLines tf.region).drop start).flatten := by
      have h0 := flatten_drop_sumLen (splitLines tf.region) start
      rw [splitLines_flatten tf.region] at h0
      exact h0
    have hsplit : sumLen ((splitLines tf.region).take fin) =
        sumLen ((splitLines tf.region).take start) +
          sumLen (((splitLines tf.region).drop start).take (fin - start)) := by
      rw [show fin = start + (fin - start) by omega, sumLen_take_add]
      rw [show start + (fin - start) - start = fin - start by omega]
    rw [hdrop, hsplit]
    rw [iterateLoop_flatten tf.encoding ((splitLines tf.region).drop start)
      (fin - start) (sumLen ((splitLines tf.region).take start))
      (chunksOk_drop (splitLines tf.region) start
        (splitLines_chunksOk tf.region))
      (by rw [List.length_drop]; omega)]
    congr 1
    exact map_drop_take_eq_range'_map (splitLines tf.region) [] start
      (fin - start) (by omega)
      (fun l => decode tf.encoding (rstrip linesep l)) tf.getline
      (fun j hj => getlineAt_eq_line tf.encoding tf.region j hj)

theorem claim_C5_witness :
    tfW.iterate 1 3 = .ok ((List.range' 1 2).map tfW.getline) ∧
    tfW.iterate 3 1 = .error (.valueError "end should be larger than start.") :=
  ⟨by
    have h := (claim_C5 tfW 1 3).2 (by omega) (by decide)
    simpa using h,
  (claim_C5 tfW 3 1).1 (by omega)⟩

/-- C3: the custom-delimiter record count equals the number of
(leftmost, non-overlapping) delimiter occurrences, content after the last
occurrence yields no record (the index equal to the count is already out
of range), and on the hundred-block scenario file with delimiter
`"\n\n"` the length is 100 with `get(i) = "line #i"`. -/
theorem claim_C3 :
    (∀ region newline : List Char, newline ≠ [] →
      lengthOf (customGetOffsets region newline) =
        (nonOverlapCount newline region : Int)) ∧
    (∀ (enc : String) (region newline : List Char), newline ≠ [] →
      getitemCore enc region (customGetOffsets region newline)
        (nonOverlapCount newline region) =
        .error (.indexError "Text object index out of range")) ∧
    tfD.length = 100 ∧
    (∀ i : Nat, i < 100 →
      tfD.getitem i = .ok ("line #" ++ toString i)) := by
  refine ⟨customGetOffsets_lengthOf, ?_, by decide, by decide⟩
  intro enc region newline hne
  have hlen := customGetOffsets_lengthOf region newline hne
  unfold getitemCore
  rw [if_pos (Int.ofNat_nonneg _), if_pos hlen.le]

theorem claim_C3_witness :
    lengthOf (customGetOffsets "x\n\nyy\n\n".data ['\n', '\n']) =
      (nonOverlapCount ['\n', '\n'] "x\n\nyy\n\n".data : Int) ∧
    tfD.getitem 7 = .ok ("line #" ++ toString 7) :=
  ⟨claim_C3.1 "x\n\nyy\n\n".data ['\n', '\n'] (by decide),
    claim_C3.2.2.2 7 (by decide)⟩

/-- C6: with `header=True` and no explicit field names the first line is
parsed at construction into the field-name list, the offset table drops
`offset[0]` so logical line 0 is the first data record, and on the
two-column scenario file the field names are `["en", "ja"]`, `get(0)` is
the expected mapping, and the length is 2 (header excluded). -/
theorem claim_C6 :
    (∀ (fs : FileSystem) (path enc : String) (d : Char)
      (ns : Option (List String)) (cf : CsvFile),
      CsvFile.init fs path enc d true ns = .ok cf →
      cf.offsets = (getOffsets (fs path)).tail) ∧
    (∀ (fs : FileSystem) (path enc : String) (d : Char) (cf : CsvFile),
      CsvFile.init fs path enc d true none = .ok cf →
      cf.fieldnames = some (headerFields d (fs path))) ∧
    csvB.fieldnames = some ["en", "ja"] ∧
    csvB.getitem 0 = .ok (.one (.mapping
      [("en", "this is English ."), ("ja", "this is Japanese .")])) ∧
    csvB.length = 2 := by
  refine ⟨?_, ?_, by decide, by decide, by decide⟩
  · intro fs path enc d ns cf h
    obtain ⟨h1, -⟩ := csvFile_init_ok fs path enc d true ns cf h
    subst h1
    rfl
  · intro fs path enc d cf h
    obtain ⟨h1, -⟩ := csvFile_init_ok fs path enc d true none cf h
    subst h1
    rfl

theorem claim_C6_witness :
    csvB.offsets = (getOffsets (fsB "b.csv")).tail ∧
    csvB.fieldnames = some (headerFields ',' (fsB "b.csv")) :=
  ⟨claim_C6.1 fsB "b.csv" "utf-8" ',' none csvB (by decide),
    claim_C6.2.1 fsB "b.csv" "utf-8" ',' csvB (by decide)⟩

/-- C10 counterexample: on a header CSV whose first data line is blank,
the slice `[0:1]` normalizes to a range of exactly one line, yet the
result is the empty list of records, not a single parsed record
(`DictReader` skips the blank row, so zero rows are parsed). -/
theorem claim_C10_counterexample :
    sliceIndices ⟨some 0, some 1, none⟩ csvBlank.length = .ok (0, 1, 1) ∧
    pyRange 0 1 1 = [0] ∧
    csvBlank.getslice ⟨some 0, some 1, none⟩ = .ok (.many []) ∧
    ∀ r : CsvRecord,
      csvBlank.getslice ⟨some 0, some 1, none⟩ ≠ .ok (.one r) := by
  refine ⟨by decide, by decide, by decide, ?_⟩
  intro r hr
  have he : csvBlank.getslice ⟨some 0, some 1, none⟩ = .ok (.many []) := by
    decide
  rw [he] at hr
  simp at hr

/-- C10 (amended): both the slice and the integer branch of
`CsvFile.__getitem__` parse the selected raw lines and collapse to a
single record exactly when the parse produced exactly one row — the
collapse is decided by the parsed-row count (blank data lines under a
header produce no row), not by whether an integer or a slice was
passed. -/
theorem claim_C10_amended :
    (∀ (cf : CsvFile) (sl : PySlice) (xs : List String),
      getSliceCore cf.encoding cf.region cf.offsets sl = .ok xs →
      cf.getslice sl = .ok (collapseRows (cf.parseRows xs))) ∧
    (∀ (cf : CsvFile) (index : Int) (s : String),
      getitemCore cf.encoding cf.region cf.offsets index = .ok s →
      cf.getitem index = .ok (collapseRows (cf.parseRows [s]))) ∧
    (∀ (rows : List CsvRecord) (r : CsvRecord),
      collapseRows rows = .one r ↔ rows = [r]) := by
  refine ⟨?_, ?_, ?_⟩
  · intro cf sl xs h
    unfold CsvFile.getslice
    rw [h]
  · intro cf index s h
    unfold CsvFile.getitem
    rw [h]
  · intro rows r
    cases rows with
    | nil => simp [collapseRows]
    | cons a rest =>
      cases rest with
      | nil => simp [collapseRows]
      | cons b rest2 => simp [collapseRows]

theorem claim_C10_witness :
    getSliceCore csvC.encoding csvC.region csvC.offsets
      ⟨some 0, some 1, none⟩ = .ok ["en,ja"] ∧
    csvC.getslice ⟨some 0, some 1, none⟩ =
      .ok (collapseRows (csvC.parseRows ["en,ja"])) :=
  ⟨by decide,
    claim_C10_amended.1 csvC ⟨some 0, some 1, none⟩ ["en,ja"] (by decide)⟩

end Easyfile
